import Mathlib

/-!
Verification of the lock-free counter of `prometheus/counter.go`.

The counter stores its value in two machine words updated atomically:
`valBits` (the bit pattern of a float64) and `change` (a uint64 carry of
small increments that would be lost to floating-point rounding).  We embed
the code shallowly: IEEE-754 double arithmetic is kept abstract as a
`Model` bundling the operations the code uses (`+`, `==`, `< 0`,
bit encoding and uint64 conversions), machine integers are `Nat` with an
explicit `% 2 ^ 64` wherever the Go code performs uint64 arithmetic, and
the compare-and-swap retry loop is embedded in its sequential
(no-concurrent-writer) semantics, where every CAS succeeds on the first
attempt, so one loop iteration is executed.  Facts about IEEE arithmetic
that a claim needs (monotonicity of addition on non-NaN values, exactness
of the bit-pattern round trip, `float64(n) == 0` only for `n = 0`) appear
as explicit hypotheses of the theorems, and concrete computable models
(an exact integer model and a toy model with absorption of relatively
tiny addends) witness that those hypotheses are satisfiable.
-/

namespace PromCounter

/-- Abstract interface to the float64 operations used by `counter.go`,
together with the (external) exemplar constructor.  `F` plays the role of
float64; `feq` is Go `==` on float64, `isNeg` is the test `v < 0`,
`fle` is the mathematical order used to state monotonicity claims,
`ofBits`/`toBits` are `math.Float64frombits`/`math.Float64bits`,
`ofUInt64` is the conversion `float64(u)` and `toUInt64` is `uint64(v)`.
`mkExemplar` abstracts `newExemplar(value, now, labels)`, an external
collaborator that validates the labels and may fail. -/
structure Model where
  F : Type
  feq : F → F → Bool
  isNeg : F → Bool
  fle : F → F → Prop
  zero : F
  fadd : F → F → F
  ofBits : Nat → F
  toBits : F → Nat
  ofUInt64 : Nat → F
  toUInt64 : F → Nat
  Ex : Type
  mkExemplar : F → Nat → List (String × String) → Except String Ex

/-- State of one `counter`: the two accumulator words and the exemplar
slot.  `valBits` and `change` are the uint64 fields of the Go struct. -/
structure CState (M : Model) where
  valBits : Nat
  change : Nat
  exemplar : Option M.Ex

/-- Panics of the embedded code, returned as values. -/
inductive Err where
  | negative
  | cardinality
  | exemplar (msg : String)
deriving DecidableEq

/-- Transcription of `addWithRoundingErrorChecking(base, addend)`:
returns the sum and whether the addend was entirely lost to rounding.
An addend comparing equal to `0` is reported as no rounding error and the
returned sum is `base` itself. -/
def addWithRoundingErrorChecking (M : Model) (base addend : M.F) : M.F × Bool :=
  if M.feq addend M.zero then
    (base, false)
  else
    let sum := M.fadd base addend
    (sum, M.feq sum base)

/-- Transcription of `counter.Add(v)` under sequential (single-writer)
semantics: the CAS loop executes exactly one iteration since every
compare-and-swap succeeds.  A panic is returned as `some Err.negative`
with the state at the moment of the panic. -/
def Add (M : Model) (s : CState M) (v : M.F) : Option Err × CState M :=
  if M.isNeg v then
    (some Err.negative, s)
  else
    let oldBits := s.valBits
    let p := addWithRoundingErrorChecking M (M.ofBits oldBits) v
    if p.2 then
      let u := M.toUInt64 v % 2 ^ 64
      let c2 := (s.change + u) % 2 ^ 64
      let q := addWithRoundingErrorChecking M (M.ofBits oldBits) (M.ofUInt64 c2)
      if q.2 then
        (none, ⟨oldBits, c2, s.exemplar⟩)
      else
        (none, ⟨M.toBits q.1, 0, s.exemplar⟩)
    else
      (none, ⟨M.toBits p.1, s.change, s.exemplar⟩)

/-- Transcription of `counter.Inc()`: a single atomic uint64 increment of
`change`; `valBits` is not touched and no panic is possible. -/
def Inc (M : Model) (s : CState M) : CState M :=
  ⟨s.valBits, (s.change + 1) % 2 ^ 64, s.exemplar⟩

/-- Transcription of `counter.get()`: load both words and return
`float64frombits(valBits) + float64(change)`. -/
def get (M : Model) (s : CState M) : M.F :=
  M.fadd (M.ofBits s.valBits) (M.ofUInt64 s.change)

/-- Transcription of `counter.updateExemplar(v, l)`: a nil label map is a
no-op, otherwise build an exemplar at the current time `t` (panicking if
the external validation fails) and store it in the slot. -/
def updateExemplar (M : Model) (s : CState M) (v : M.F)
    (l : Option (List (String × String))) (t : Nat) : Option Err × CState M :=
  match l with
  | none => (none, s)
  | some lm =>
    match M.mkExemplar v t lm with
    | .error e => (some (Err.exemplar e), s)
    | .ok ex => (none, ⟨s.valBits, s.change, some ex⟩)

/-- Transcription of `counter.AddWithExemplar(v, e)`: `Add` first, and
only if it returns normally, `updateExemplar`. -/
def AddWithExemplar (M : Model) (s : CState M) (v : M.F)
    (l : Option (List (String × String))) (t : Nat) : Option Err × CState M :=
  match Add M s v with
  | (some e, s1) => (some e, s1)
  | (none, s1) => updateExemplar M s1 v l t

/-- Bit codec used by the concrete witness models: a bijection between
`Nat` bit patterns and `Int` values (zigzag), standing in for the exact
float64 bits round trip. -/
def zigzagToBits (i : Int) : Nat :=
  if 0 ≤ i then (2 * i).toNat else (-2 * i - 1).toNat

/-- Inverse of `zigzagToBits`. -/
def zigzagOfBits (n : Nat) : Int :=
  if n % 2 = 0 then ((n / 2 : Nat) : Int) else -(((n : Int) + 1) / 2)

theorem zigzag_left_inverse (n : Nat) : zigzagToBits (zigzagOfBits n) = n := by
  unfold zigzagOfBits zigzagToBits
  split
  · split <;> omega
  · split <;> omega

theorem zigzag_right_inverse (i : Int) : zigzagOfBits (zigzagToBits i) = i := by
  unfold zigzagOfBits zigzagToBits
  split
  · split <;> omega
  · split <;> omega

/-- Concrete model with exact integer arithmetic: addition never loses an
addend, so the rounding-error path only depends on the `addend == 0`
early return.  It satisfies every arithmetic law assumed of IEEE floats. -/
@[reducible] def ExactModel : Model where
  F := Int
  feq a b := a == b
  isNeg a := decide (a < 0)
  fle a b := a ≤ b
  zero := 0
  fadd a b := a + b
  ofBits := zigzagOfBits
  toBits := zigzagToBits
  ofUInt64 n := (n : Int)
  toUInt64 i := i.toNat
  Ex := Unit
  mkExemplar _ _ _ := .ok ()

/-- Concrete model in which an addend at most a thousandth of the base is
absorbed (the sum compares equal to the base), exhibiting the
floating-point rounding loss that the carry register compensates. -/
@[reducible] def ToyModel : Model where
  F := Int
  feq a b := a == b
  isNeg a := decide (a < 0)
  fle a b := a ≤ b
  zero := 0
  fadd a b := if b ≠ 0 ∧ b.natAbs * 1000 ≤ a.natAbs then a else a + b
  ofBits := zigzagOfBits
  toBits := zigzagToBits
  ofUInt64 n := (n : Int)
  toUInt64 i := i.toNat
  Ex := Unit
  mkExemplar _ _ _ := .ok ()

/-- Definition following the spec's words (§3 invariant and §4.1 read):
the counter's true value is always `bitsToFloat(valueBits) + float(carry)`,
and `read()` loads both registers and returns their sum. -/
def read_spec (M : Model) (s : CState M) : M.F :=
  M.fadd (M.ofBits s.valBits) (M.ofUInt64 s.change)

/-- C3: for every counter state, `read()` returns exactly the float
decoded from `valueBits` plus the carry register converted to float.
`get` is a pure function of the state, so neither register is modified. -/
theorem get_is_read_spec (M : Model) (s : CState M) :
    get M s = read_spec M s := rfl

/-- Helper: the negative-value guard of `Add` fires before any state is
touched, so a panicking `Add` returns the input state unchanged. -/
theorem add_of_negative (M : Model) (s : CState M) (v : M.F)
    (h : M.isNeg v = true) : Add M s v = (some Err.negative, s) := by
  simp [Add, h]

/-- C4: `add(delta)` panics exactly when `delta < 0` (the Go test
`v < 0`), and when it panics both accumulator registers and the exemplar
slot are exactly as they were before the call; when `delta` is not
negative (which includes every `delta ≥ 0`), no panic occurs. -/
theorem add_negative_panics (M : Model) (s : CState M) (v : M.F) :
    (M.isNeg v = true → Add M s v = (some Err.negative, s)) ∧
    (M.isNeg v = false → (Add M s v).1 = none) := by
  constructor
  · exact add_of_negative M s v
  · intro h
    simp only [Add, h, Bool.false_eq_true, if_false]
    split
    · split <;> simp
    · simp

/-- Witness for C4: in the exact model, `Add` on `-1` panics leaving the
state unchanged, and `Add` on `1` does not panic. -/
theorem add_negative_panics_witness :
    Add ExactModel ⟨0, 0, none⟩ (-1) = (some Err.negative, ⟨0, 0, none⟩) ∧
    (Add ExactModel ⟨0, 0, none⟩ 1).1 = none :=
  ⟨(add_negative_panics ExactModel ⟨0, 0, none⟩ (-1)).1 (by decide),
   (add_negative_panics ExactModel ⟨0, 0, none⟩ 1).2 (by decide)⟩

/-- C9: for every negative `delta` and every labels argument (nil or
not), `AddWithExemplar` panics inside `Add` before any exemplar update is
attempted: accumulator registers and exemplar slot are all unchanged. -/
theorem addWithExemplar_negative_atomic (M : Model) (s : CState M) (v : M.F)
    (l : Option (List (String × String))) (t : Nat) (h : M.isNeg v = true) :
    AddWithExemplar M s v l t = (some Err.negative, s) := by
  unfold AddWithExemplar
  rw [add_of_negative M s v h]

/-- Witness for C9: concrete negative add with a non-nil label map leaves
the full state (including the exemplar slot) untouched. -/
theorem addWithExemplar_negative_atomic_witness :
    AddWithExemplar ExactModel ⟨7, 3, none⟩ (-2) (some [("trace", "abc")]) 5 =
      (some Err.negative, ⟨7, 3, none⟩) :=
  addWithExemplar_negative_atomic ExactModel ⟨7, 3, none⟩ (-2)
    (some [("trace", "abc")]) 5 (by decide)

/-- C10: `Inc` performs exactly one modulo `2 ^ 64` addition of `1` to the
carry register, never touches `valBits` (and, being a total function into
states, never panics); at carry `2 ^ 64 - 1` it wraps the carry to `0`, so
the value reported by `read()` decreases instead of increasing by one
(shown in the exact-arithmetic model). -/
theorem inc_carry_mod_wrap :
    (∀ (M : Model) (s : CState M),
      Inc M s = ⟨s.valBits, (s.change + 1) % 2 ^ 64, s.exemplar⟩) ∧
    (Inc ExactModel ⟨0, 2 ^ 64 - 1, none⟩).change = 0 ∧
    get ExactModel (Inc ExactModel ⟨0, 2 ^ 64 - 1, none⟩) <
      get ExactModel ⟨0, 2 ^ 64 - 1, none⟩ := by
  refine ⟨fun M s => rfl, ?_, ?_⟩
  · show (2 ^ 64 - 1 + 1) % 2 ^ 64 = 0
    omega
  · show zigzagOfBits 0 + (((2 ^ 64 - 1 + 1) % 2 ^ 64 : Nat) : Int) <
      zigzagOfBits 0 + ((2 ^ 64 - 1 : Nat) : Int)
    have h1 : (2 ^ 64 - 1 + 1) % 2 ^ 64 = 0 := by omega
    rw [h1]
    unfold zigzagOfBits
    norm_num

/-- C8: `add(0)` is an identity.  Under the IEEE facts that `0` is not
negative, `0 == 0`, and the bits round trip is exact, `Add` with the zero
float terminates without a panic, the rounding check reports no loss (the
direct-commit path is taken), and the resulting state is exactly the
prior state, so `read()` is unchanged. -/
theorem add_zero_identity (M : Model) (s : CState M)
    (hvb : s.valBits < 2 ^ 64)
    (hrt : ∀ n, n < 2 ^ 64 → M.toBits (M.ofBits n) = n)
    (hz : M.feq M.zero M.zero = true)
    (hnegz : M.isNeg M.zero = false) :
    (addWithRoundingErrorChecking M (M.ofBits s.valBits) M.zero).2 = false ∧
    Add M s M.zero = (none, s) ∧
    get M (Add M s M.zero).2 = get M s := by
  have hp : addWithRoundingErrorChecking M (M.ofBits s.valBits) M.zero =
      (M.ofBits s.valBits, false) := by
    unfold addWithRoundingErrorChecking
    rw [hz]
    simp
  have hadd : Add M s M.zero = (none, s) := by
    unfold Add
    rw [hnegz]
    simp only [Bool.false_eq_true, if_false, hp]
    rw [hrt s.valBits hvb]
  exact ⟨by rw [hp], hadd, by rw [hadd]⟩

/-- Witness for C8: in the exact model, adding the zero float to a
concrete state returns the state unchanged through the direct path. -/
theorem add_zero_identity_witness :
    (addWithRoundingErrorChecking ExactModel (ExactModel.ofBits 9)
      ExactModel.zero).2 = false ∧
    Add ExactModel ⟨9, 4, none⟩ ExactModel.zero = (none, ⟨9, 4, none⟩) ∧
    get ExactModel (Add ExactModel ⟨9, 4, none⟩ ExactModel.zero).2 =
      get ExactModel ⟨9, 4, none⟩ :=
  add_zero_identity ExactModel ⟨9, 4, none⟩ (by norm_num)
    (fun n hn => zigzag_left_inverse n) (by decide) (by decide)

/-- C1: when `add(delta)` (for non-negative `delta`, sequentially) finds
the rounding-loss condition on the loaded base, it truncates `delta` to
its integer part `u = uint64(delta)` and either (a) banks `carry + u`
into the carry register leaving `valBits` unchanged when
`base + float64(carry + u)` still compares equal to `base`, or (b) stores
the bits of `base + float64(carry + u)` into `valBits` and resets the
carry to `0` when the sum compares unequal to `base`.  The hypotheses
record IEEE facts: the bits round trip is exact, `float64(n) == 0` only
for `n = 0`, and a value equal to something under `+` is not a NaN, so
adding `float64(0)` to it compares equal to it. -/
theorem add_rounding_loss_cases (M : Model) (s : CState M) (v : M.F)
    (hvb : s.valBits < 2 ^ 64)
    (hrt : ∀ n, n < 2 ^ 64 → M.toBits (M.ofBits n) = n)
    (hconv : ∀ n, n < 2 ^ 64 → M.feq (M.ofUInt64 n) M.zero = true → n = 0)
    (haddz : ∀ b x, M.feq (M.fadd b x) b = true →
      M.feq (M.fadd b (M.ofUInt64 0)) b = true)
    (hneg : M.isNeg v = false)
    (hloss : (addWithRoundingErrorChecking M (M.ofBits s.valBits) v).2 = true) :
    (M.feq (M.fadd (M.ofBits s.valBits)
        (M.ofUInt64 ((s.change + M.toUInt64 v % 2 ^ 64) % 2 ^ 64)))
        (M.ofBits s.valBits) = true →
      Add M s v = (none,
        ⟨s.valBits, (s.change + M.toUInt64 v % 2 ^ 64) % 2 ^ 64,
          s.exemplar⟩)) ∧
    (M.feq (M.fadd (M.ofBits s.valBits)
        (M.ofUInt64 ((s.change + M.toUInt64 v % 2 ^ 64) % 2 ^ 64)))
        (M.ofBits s.valBits) = false →
      Add M s v = (none,
        ⟨M.toBits (M.fadd (M.ofBits s.valBits)
            (M.ofUInt64 ((s.change + M.toUInt64 v % 2 ^ 64) % 2 ^ 64))),
          0, s.exemplar⟩)) := by
  have hsum : M.feq (M.fadd (M.ofBits s.valBits) v) (M.ofBits s.valBits) = true := by
    unfold addWithRoundingErrorChecking at hloss
    by_cases h0 : M.feq v M.zero = true
    · rw [h0] at hloss
      simp at hloss
    · rw [Bool.not_eq_true] at h0
      rw [h0] at hloss
      simpa using hloss
  constructor
  · intro hc
    by_cases hz2 : M.feq (M.ofUInt64 ((s.change + M.toUInt64 v % 2 ^ 64) % 2 ^ 64))
        M.zero = true
    · have hc2 : (s.change + M.toUInt64 v % 2 ^ 64) % 2 ^ 64 = 0 :=
        hconv _ (Nat.mod_lt _ (by norm_num)) hz2
      have hq : addWithRoundingErrorChecking M (M.ofBits s.valBits)
          (M.ofUInt64 ((s.change + M.toUInt64 v % 2 ^ 64) % 2 ^ 64)) =
          (M.ofBits s.valBits, false) := by
        unfold addWithRoundingErrorChecking
        rw [hz2]
        simp
      simp only [Add, hneg, Bool.false_eq_true, if_false, hloss, hq]
      simp [hrt s.valBits hvb, hc2]
      omega
    · rw [Bool.not_eq_true] at hz2
      have hq : addWithRoundingErrorChecking M (M.ofBits s.valBits)
          (M.ofUInt64 ((s.change + M.toUInt64 v % 2 ^ 64) % 2 ^ 64)) =
          (M.fadd (M.ofBits s.valBits)
              (M.ofUInt64 ((s.change + M.toUInt64 v % 2 ^ 64) % 2 ^ 64)),
            M.feq (M.fadd (M.ofBits s.valBits)
                (M.ofUInt64 ((s.change + M.toUInt64 v % 2 ^ 64) % 2 ^ 64)))
              (M.ofBits s.valBits)) := by
        unfold addWithRoundingErrorChecking
        rw [hz2]
        simp
      simp only [Add, hneg, Bool.false_eq_true, if_false, hloss, hq, hc]
      simp
  · intro hc
    by_cases hz2 : M.feq (M.ofUInt64 ((s.change + M.toUInt64 v % 2 ^ 64) % 2 ^ 64))
        M.zero = true
    · have hc2 : (s.change + M.toUInt64 v % 2 ^ 64) % 2 ^ 64 = 0 :=
        hconv _ (Nat.mod_lt _ (by norm_num)) hz2
      rw [hc2] at hc
      rw [haddz _ _ hsum] at hc
      cases hc
    · rw [Bool.not_eq_true] at hz2
      have hq : addWithRoundingErrorChecking M (M.ofBits s.valBits)
          (M.ofUInt64 ((s.change + M.toUInt64 v % 2 ^ 64) % 2 ^ 64)) =
          (M.fadd (M.ofBits s.valBits)
              (M.ofUInt64 ((s.change + M.toUInt64 v % 2 ^ 64) % 2 ^ 64)),
            M.feq (M.fadd (M.ofBits s.valBits)
                (M.ofUInt64 ((s.change + M.toUInt64 v % 2 ^ 64) % 2 ^ 64)))
              (M.ofBits s.valBits)) := by
        unfold addWithRoundingErrorChecking
        rw [hz2]
        simp
      simp only [Add, hneg, Bool.false_eq_true, if_false, hloss, hq, hc]
      simp

/-- Witness for C1: in the toy model an addend of `1` on a base of
`1000` is absorbed (rounding loss), and since `1000 + float64(0 + 1)`
is also absorbed, the increment is banked in the carry register with
`valBits` unchanged. -/
theorem add_rounding_loss_cases_witness :
    Add ToyModel ⟨zigzagToBits 1000, 0, none⟩ 1 =
      (none, ⟨zigzagToBits 1000, 1, none⟩) := by
  have h := add_rounding_loss_cases ToyModel ⟨zigzagToBits 1000, 0, none⟩ 1
    (by decide)
    (fun n hn => zigzag_left_inverse n)
    (fun n hn hz => by
      have : (n : Int) = 0 := by simpa using hz
      exact_mod_cast this)
    (fun b x hb => by
      have hb0 : ToyModel.fadd b (ToyModel.ofUInt64 0) = b := by
        show (if (0 : Int) ≠ 0 ∧ (0 : Int).natAbs * 1000 ≤ b.natAbs
          then b else b + 0) = b
        simp
      rw [hb0]
      simp)
    (by decide) (by decide)
  have hc := h.1 (by decide)
  exact hc.trans rfl

/-- Formalization of C2 as stated: the rounding-loss handling path of
`Add` is taken exactly when the floating-point sum `base + delta`
compares equal to `base`.  The code actually branches on the second
component of `addWithRoundingErrorChecking`, which is `false` whenever
`delta` compares equal to `0`, even though `base + 0 == base` holds. -/
def roundingPathIffSumAbsorbed (M : Model) (s : CState M) (v : M.F) : Prop :=
  (addWithRoundingErrorChecking M (M.ofBits s.valBits) v).2 = true ↔
    M.feq (M.fadd (M.ofBits s.valBits) v) (M.ofBits s.valBits) = true

/-- Counterexample to C2 as stated: in the exact model with base `5` and
`delta = 0`, the sum `5 + 0` compares equal to `5`, yet the rounding-loss
path is not taken; instead `Add` commits through the direct path,
swapping `valBits` (to the same bit pattern, since the checker returned
`base` itself). -/
theorem add_path_condition_counterexample :
    ¬ roundingPathIffSumAbsorbed ExactModel ⟨zigzagToBits 5, 0, none⟩
        ExactModel.zero ∧
    Add ExactModel ⟨zigzagToBits 5, 0, none⟩ ExactModel.zero =
      (none, ⟨zigzagToBits 5, 0, none⟩) := by
  constructor
  · intro h
    have h2 := h.2 (by decide)
    exact absurd h2 (by decide)
  · rfl

/-- C2 (amended): the rounding-loss handling path is taken exactly when
`delta` does not compare equal to `0` and `base + delta` compares equal
to `base`; in all other cases `Add` commits the direct float addition,
swapping `valueBits` to the bits of the checker's result, which is
`base + delta` when `delta` is nonzero and `base` itself when `delta`
compares equal to `0`. -/
theorem add_path_condition (M : Model) (s : CState M) (v : M.F)
    (hneg : M.isNeg v = false) :
    ((addWithRoundingErrorChecking M (M.ofBits s.valBits) v).2 = true ↔
      (M.feq v M.zero = false ∧
        M.feq (M.fadd (M.ofBits s.valBits) v) (M.ofBits s.valBits) = true)) ∧
    ((addWithRoundingErrorChecking M (M.ofBits s.valBits) v).2 = false →
      Add M s v = (none,
        ⟨M.toBits (if M.feq v M.zero then M.ofBits s.valBits
            else M.fadd (M.ofBits s.valBits) v),
          s.change, s.exemplar⟩)) := by
  constructor
  · unfold addWithRoundingErrorChecking
    by_cases h0 : M.feq v M.zero = true
    · rw [h0]
      simp
    · rw [Bool.not_eq_true] at h0
      rw [h0]
      simp
  · intro hdirect
    unfold Add
    rw [hneg]
    simp only [Bool.false_eq_true, if_false, hdirect]
    by_cases h0 : M.feq v M.zero = true
    · rw [h0]
      unfold addWithRoundingErrorChecking
      rw [h0]
      simp
    · rw [Bool.not_eq_true] at h0
      rw [h0]
      unfold addWithRoundingErrorChecking
      rw [h0]
      simp

/-- Witness for C2 (amended): in the toy model, `5 + 3` is not absorbed,
the rounding path is not taken, and `Add` commits `valBits` to the bits
of the direct sum `8`. -/
theorem add_path_condition_witness :
    ((addWithRoundingErrorChecking ToyModel (ToyModel.ofBits (zigzagToBits 5))
        (3 : Int)).2 = true ↔
      (ToyModel.feq (3 : Int) ToyModel.zero = false ∧
        ToyModel.feq (ToyModel.fadd (ToyModel.ofBits (zigzagToBits 5)) 3)
          (ToyModel.ofBits (zigzagToBits 5)) = true)) ∧
    Add ToyModel ⟨zigzagToBits 5, 0, none⟩ (3 : Int) =
      (none, ⟨zigzagToBits 8, 0, none⟩) := by
  have h := add_path_condition ToyModel ⟨zigzagToBits 5, 0, none⟩ (3 : Int)
    (by decide)
  refine ⟨h.1, ?_⟩
  have h2 := h.2 (by decide)
  exact h2.trans rfl

/-- Export record produced by `counter.Write` (the fields the claims talk
about: the accumulated value and the exemplar; label pairs and creation
timestamp are immutable pass-through data handled by `populateMetric`). -/
structure ExportRecord (M : Model) where
  value : M.F
  exemplar : Option M.Ex

/-- Atomic loads performed by `counter.Write`, in the order they can
occur. -/
inductive ReadEvent where
  | loadExemplar
  | loadValBits
  | loadChange
deriving DecidableEq, BEq

/-- Program order of the loads in `counter.Write`: the exemplar slot is
loaded first, then `get()` loads `valBits` and then `change`. -/
def writeReadOrder : List ReadEvent :=
  [ReadEvent.loadExemplar, ReadEvent.loadValBits, ReadEvent.loadChange]

/-- Instant at which `Write` loads the exemplar slot. -/
def exemplarReadAt : Nat := writeReadOrder.findIdx (· == ReadEvent.loadExemplar)

/-- Instant at which `Write` loads `valBits`. -/
def valBitsReadAt : Nat := writeReadOrder.findIdx (· == ReadEvent.loadValBits)

/-- Instant at which `Write` loads `change`. -/
def changeReadAt : Nat := writeReadOrder.findIdx (· == ReadEvent.loadChange)

/-- Transcription of `counter.Write` against an explicit timeline
`mem : Nat → CState M` giving the shared state visible at each instant
(concurrent writers may change the state between the three atomic
loads).  The loads happen at the consecutive instants 0, 1, 2 in source
order: exemplar first, then the two loads of `get`. -/
def Write (M : Model) (mem : Nat → CState M) : ExportRecord M :=
  let ex := (mem 0).exemplar
  let fval := M.ofBits (mem 1).valBits
  let ival := (mem 2).change
  ⟨M.fadd fval (M.ofUInt64 ival), ex⟩

/-- C6: in every execution of `Write`, the exemplar slot is read at an
instant strictly before the instants at which the value registers are
read, and the produced record pairs the exemplar loaded at the earlier
instant with the value computed from the registers loaded at the later
instants; with no concurrent writer (a constant timeline) the value is
exactly `get` of the snapshot state. -/
theorem write_reads_exemplar_before_value (M : Model) (mem : Nat → CState M) :
    exemplarReadAt < valBitsReadAt ∧
    exemplarReadAt < changeReadAt ∧
    Write M mem =
      ⟨M.fadd (M.ofBits (mem valBitsReadAt).valBits)
          (M.ofUInt64 (mem changeReadAt).change),
        (mem exemplarReadAt).exemplar⟩ ∧
    (∀ s : CState M, Write M (fun _ => s) = ⟨get M s, s.exemplar⟩) :=
  ⟨by decide, by decide, rfl, fun s => rfl⟩

/-- State of a counter family, modelled from the spec (§3, §4.4): the
number of free (non-curried) label positions, the shared storage mapping
each resolved label-value signature to a counter identity, and a source
of fresh counter identities. -/
structure VecState where
  numFree : Nat
  metrics : List (List String × Nat)
  nextId : Nat
deriving DecidableEq

/-- Modelled from the spec: `MetricVec.GetMetricWithLabelValues` (the
`MetricVec` implementation is not under src/; spec §4.4 and §7 describe
it).  A wrong-length value sequence is a cardinality mismatch returned as
a recoverable error with no metric; otherwise the counter for the
signature is returned, lazily created on first lookup. -/
def MetricVec.getMetricWithLabelValues (vec : VecState) (lvs : List String) :
    Option Nat × Option Err × VecState :=
  if lvs.length ≠ vec.numFree then
    (none, some Err.cardinality, vec)
  else
    match (vec.metrics.find? (fun p => p.1 = lvs)) with
    | some p => (some p.2, none, vec)
    | none =>
      (some vec.nextId, none,
        ⟨vec.numFree, (lvs, vec.nextId) :: vec.metrics, vec.nextId + 1⟩)

/-- Transcription of `CounterVec.GetMetricWithLabelValues`: delegate to
the underlying `MetricVec` and pass the metric (as a `Counter`) and the
error through. -/
def CounterVec.getMetricWithLabelValues (vec : VecState) (lvs : List String) :
    Option Nat × Option Err × VecState :=
  MetricVec.getMetricWithLabelValues vec lvs

/-- Transcription of `CounterVec.WithLabelValues`: call the
non-panicking lookup and panic (error result) exactly when it reports an
error, otherwise return the same counter. -/
def CounterVec.withLabelValues (vec : VecState) (lvs : List String) :
    Except Err (Option Nat × VecState) :=
  match CounterVec.getMetricWithLabelValues vec lvs with
  | (_, some e, _) => Except.error e
  | (c, none, vec2) => Except.ok (c, vec2)

/-- C7: for every family state and label-value sequence, the panicking
lookup fails exactly when the non-panicking lookup returns an error (in
particular on a cardinality mismatch between the values and the free
label positions), and when no error occurs both return the same counter
(and leave the family in the same state). -/
theorem withLabelValues_panics_iff_error (vec : VecState) (lvs : List String) :
    ((∃ e, CounterVec.withLabelValues vec lvs = Except.error e) ↔
      (CounterVec.getMetricWithLabelValues vec lvs).2.1.isSome = true) ∧
    (∀ c vec2, (CounterVec.getMetricWithLabelValues vec lvs).2.1 = none →
      CounterVec.getMetricWithLabelValues vec lvs = (c, none, vec2) →
      CounterVec.withLabelValues vec lvs = Except.ok (c, vec2)) ∧
    (lvs.length ≠ vec.numFree →
      CounterVec.withLabelValues vec lvs = Except.error Err.cardinality) := by
  refine ⟨⟨?_, ?_⟩, ?_, ?_⟩
  · rintro ⟨e, he⟩
    unfold CounterVec.withLabelValues at he
    revert he
    rcases h : CounterVec.getMetricWithLabelValues vec lvs with ⟨c, e2, vec2⟩
    cases e2 <;> simp
  · intro h
    unfold CounterVec.withLabelValues
    rcases h2 : CounterVec.getMetricWithLabelValues vec lvs with ⟨c, e2, vec2⟩
    rw [h2] at h
    cases e2
    · simp at h
    · simp
  · intro c vec2 h h2
    unfold CounterVec.withLabelValues
    rw [h2]
  · intro h
    unfold CounterVec.withLabelValues CounterVec.getMetricWithLabelValues
      MetricVec.getMetricWithLabelValues
    rw [if_pos h]

/-- Witness for C7: on a family with two free labels, looking up one
value panics with the cardinality error exactly as the non-panicking
variant reports it, and looking up two values returns the same (newly
created) counter in both variants. -/
theorem withLabelValues_panics_iff_error_witness :
    CounterVec.withLabelValues ⟨2, [], 0⟩ ["a"] =
      Except.error Err.cardinality ∧
    CounterVec.withLabelValues ⟨2, [], 0⟩ ["a", "b"] =
      Except.ok (some 0, ⟨2, [(["a", "b"], 0)], 1⟩) := by
  constructor
  · exact (withLabelValues_panics_iff_error ⟨2, [], 0⟩ ["a"]).2.2 (by decide)
  · exact (withLabelValues_panics_iff_error ⟨2, [], 0⟩ ["a", "b"]).2.1
      (some 0) ⟨2, [(["a", "b"], 0)], 1⟩ (by decide) (by decide)

/-- One sequential operation on a counter: `Inc()` or `Add(v)`. -/
inductive Op (M : Model) where
  | inc
  | add (v : M.F)

/-- Run one operation under sequential semantics, keeping the resulting
state (an `Add` panic leaves the state unchanged, and the traces the
claims quantify over exclude negative deltas anyway). -/
def runOp (M : Model) (s : CState M) : Op M → CState M
  | Op.inc => Inc M s
  | Op.add v => (Add M s v).2

/-- Run a sequence of operations from a starting state. -/
def runOps (M : Model) (s : CState M) (ops : List (Op M)) : CState M :=
  ops.foldl (runOp M) s

/-- Side condition on one step: an `Add` carries a non-negative delta
(the claim's `delta ≥ 0`), and the uint64 carry addition performed by
the step does not wrap past `2 ^ 64`. -/
def StepOK (M : Model) (s : CState M) : Op M → Prop
  | Op.inc => s.change + 1 < 2 ^ 64
  | Op.add v => M.fle M.zero v ∧ M.isNeg v = false ∧
      s.change + M.toUInt64 v % 2 ^ 64 < 2 ^ 64

/-- Every step of a trace satisfies its side condition at the state in
which it executes. -/
def TraceOK (M : Model) : CState M → List (Op M) → Prop
  | _, [] => True
  | s, op :: rest => StepOK M s op ∧ TraceOK M (runOp M s op) rest

/-- Formalization of C5 as stated: along the trace, the value returned
by `read()` after each operation is at least its value before that
operation. -/
def ReadMonotone (M : Model) (s : CState M) (ops : List (Op M)) : Prop :=
  ∀ i, i < ops.length →
    M.fle (get M (runOps M s (ops.take i)))
      (get M (runOps M s (ops.take (i + 1))))

/-- Facts about IEEE float64 arithmetic on the values a counter handles
(no NaNs): the order is reflexive and transitive, addition is monotone
in each argument, conversion of a uint64 compares equal to `0` only at
`0`, adding `float64(0)` or any non-negative value never decreases, and
the float-to-bits-to-float round trip is exact. -/
structure MonoLaws (M : Model) : Prop where
  refl : ∀ x, M.fle x x
  trans : ∀ x y z, M.fle x y → M.fle y z → M.fle x z
  monoCarry : ∀ b m n, m ≤ n →
    M.fle (M.fadd b (M.ofUInt64 m)) (M.fadd b (M.ofUInt64 n))
  monoBase : ∀ b b2 m, M.fle b b2 →
    M.fle (M.fadd b (M.ofUInt64 m)) (M.fadd b2 (M.ofUInt64 m))
  addNonneg : ∀ b v, M.fle M.zero v → M.fle b (M.fadd b v)
  addZero : ∀ x, M.fle x (M.fadd x (M.ofUInt64 0))
  convZero : ∀ n, n < 2 ^ 64 → M.feq (M.ofUInt64 n) M.zero = true → n = 0
  bitsRound : ∀ x, M.ofBits (M.toBits x) = x

/-- Exhaustive description of the state produced by a non-panicking
`Add`: direct commit with a zero addend, direct commit of the sum,
carry fold through the zero-addend early return, carry banking, or
carry fold of the accumulated sum. -/
theorem add_case_analysis (M : Model) (s : CState M) (v : M.F)
    (hneg : M.isNeg v = false) :
    Add M s v = (none,
      ⟨M.toBits (M.ofBits s.valBits), s.change, s.exemplar⟩) ∨
    Add M s v = (none,
      ⟨M.toBits (M.fadd (M.ofBits s.valBits) v), s.change, s.exemplar⟩) ∨
    (M.feq (M.ofUInt64 ((s.change + M.toUInt64 v % 2 ^ 64) % 2 ^ 64))
        M.zero = true ∧
      Add M s v = (none,
        ⟨M.toBits (M.ofBits s.valBits), 0, s.exemplar⟩)) ∨
    Add M s v = (none,
      ⟨s.valBits, (s.change + M.toUInt64 v % 2 ^ 64) % 2 ^ 64,
        s.exemplar⟩) ∨
    Add M s v = (none,
      ⟨M.toBits (M.fadd (M.ofBits s.valBits)
          (M.ofUInt64 ((s.change + M.toUInt64 v % 2 ^ 64) % 2 ^ 64))),
        0, s.exemplar⟩) := by
  by_cases h0 : M.feq v M.zero = true
  · left
    have hp2 : (addWithRoundingErrorChecking M (M.ofBits s.valBits) v).2 =
        false := by
      unfold addWithRoundingErrorChecking
      rw [h0]
      simp
    have hp1 : (addWithRoundingErrorChecking M (M.ofBits s.valBits) v).1 =
        M.ofBits s.valBits := by
      unfold addWithRoundingErrorChecking
      rw [h0]
      simp
    simp only [Add, hneg, Bool.false_eq_true, if_false, hp2, hp1]
  · rw [Bool.not_eq_true] at h0
    have hp1 : (addWithRoundingErrorChecking M (M.ofBits s.valBits) v).1 =
        M.fadd (M.ofBits s.valBits) v := by
      unfold addWithRoundingErrorChecking
      rw [h0]
      simp
    by_cases h1 : M.feq (M.fadd (M.ofBits s.valBits) v) (M.ofBits s.valBits) = true
    · have hp2 : (addWithRoundingErrorChecking M (M.ofBits s.valBits) v).2 =
          true := by
        unfold addWithRoundingErrorChecking
        rw [h0]
        simpa using h1
      by_cases h2 : M.feq
          (M.ofUInt64 ((s.change + M.toUInt64 v % 2 ^ 64) % 2 ^ 64))
          M.zero = true
      · right; right; left
        refine ⟨h2, ?_⟩
        have hq2 : (addWithRoundingErrorChecking M (M.ofBits s.valBits)
            (M.ofUInt64 ((s.change + M.toUInt64 v % 2 ^ 64) % 2 ^ 64))).2 =
            false := by
          unfold addWithRoundingErrorChecking
          rw [h2]
          simp
        have hq1 : (addWithRoundingErrorChecking M (M.ofBits s.valBits)
            (M.ofUInt64 ((s.change + M.toUInt64 v % 2 ^ 64) % 2 ^ 64))).1 =
            M.ofBits s.valBits := by
          unfold addWithRoundingErrorChecking
          rw [h2]
          simp
        simp only [Add, hneg, Bool.false_eq_true, if_false, hp2,
          eq_self_iff_true, if_true, hq2, hq1]
      · rw [Bool.not_eq_true] at h2
        have hq1 : (addWithRoundingErrorChecking M (M.ofBits s.valBits)
            (M.ofUInt64 ((s.change + M.toUInt64 v % 2 ^ 64) % 2 ^ 64))).1 =
            M.fadd (M.ofBits s.valBits)
              (M.ofUInt64 ((s.change + M.toUInt64 v % 2 ^ 64) % 2 ^ 64)) := by
          unfold addWithRoundingErrorChecking
          rw [h2]
          simp
        by_cases h3 : M.feq (M.fadd (M.ofBits s.valBits)
            (M.ofUInt64 ((s.change + M.toUInt64 v % 2 ^ 64) % 2 ^ 64)))
            (M.ofBits s.valBits) = true
        · right; right; right; left
          have hq2 : (addWithRoundingErrorChecking M (M.ofBits s.valBits)
              (M.ofUInt64 ((s.change + M.toUInt64 v % 2 ^ 64) % 2 ^ 64))).2 =
              true := by
            unfold addWithRoundingErrorChecking
            rw [h2]
            simpa using h3
          simp only [Add, hneg, Bool.false_eq_true, if_false, hp2,
            eq_self_iff_true, if_true, hq2]
        · rw [Bool.not_eq_true] at h3
          right; right; right; right
          have hq2 : (addWithRoundingErrorChecking M (M.ofBits s.valBits)
              (M.ofUInt64 ((s.change + M.toUInt64 v % 2 ^ 64) % 2 ^ 64))).2 =
              false := by
            unfold addWithRoundingErrorChecking
            rw [h2]
            simpa using h3
          simp only [Add, hneg, Bool.false_eq_true, if_false, hp2,
            eq_self_iff_true, if_true, hq2, hq1]
    · rw [Bool.not_eq_true] at h1
      right; left
      have hp2 : (addWithRoundingErrorChecking M (M.ofBits s.valBits) v).2 =
          false := by
        unfold addWithRoundingErrorChecking
        rw [h0]
        simpa using h1
      simp only [Add, hneg, Bool.false_eq_true, if_false, hp2, hp1]

/-- One step never decreases `read()`, given the IEEE monotonicity facts
and the step side condition. -/
theorem step_read_mono (M : Model) (L : MonoLaws M) (s : CState M)
    (op : Op M) (h : StepOK M s op) :
    M.fle (get M s) (get M (runOp M s op)) := by
  cases op with
  | inc =>
    have hm : (s.change + 1) % 2 ^ 64 = s.change + 1 :=
      Nat.mod_eq_of_lt h
    show M.fle (get M s) (get M (Inc M s))
    unfold get Inc
    simp only [hm]
    exact L.monoCarry _ _ _ (Nat.le_succ _)
  | add v =>
    obtain ⟨hnn, hneg, hnw⟩ := h
    have hca : (s.change + M.toUInt64 v % 2 ^ 64) % 2 ^ 64 =
        s.change + M.toUInt64 v % 2 ^ 64 := Nat.mod_eq_of_lt hnw
    show M.fle (get M s) (get M (Add M s v).2)
    rcases add_case_analysis M s v hneg with h1 | h1 | ⟨hz, h1⟩ | h1 | h1
    · rw [h1]
      unfold get
      rw [L.bitsRound]
      exact L.refl _
    · rw [h1]
      unfold get
      rw [L.bitsRound]
      exact L.monoBase _ _ _ (L.addNonneg _ _ hnn)
    · have hc0 : (s.change + M.toUInt64 v % 2 ^ 64) % 2 ^ 64 = 0 :=
        L.convZero _ (Nat.mod_lt _ (by norm_num)) hz
      have hch : s.change = 0 := by omega
      rw [h1]
      unfold get
      rw [L.bitsRound, hch]
      exact L.refl _
    · rw [h1]
      unfold get
      rw [hca]
      exact L.monoCarry _ _ _ (Nat.le_add_right _ _)
    · rw [h1]
      unfold get
      rw [L.bitsRound]
      refine L.trans _ _ _ (L.monoCarry _ s.change
        ((s.change + M.toUInt64 v % 2 ^ 64) % 2 ^ 64) ?_) (L.addZero _)
      rw [hca]
      exact Nat.le_add_right _ _

/-- Running one more operation of the trace is one `runOp` step on the
state reached so far. -/
theorem runOps_take_succ (M : Model) (s : CState M) (ops : List (Op M))
    (i : Nat) (h : i < ops.length) :
    runOps M s (ops.take (i + 1)) =
      runOp M (runOps M s (ops.take i)) (ops.get ⟨i, h⟩) := by
  induction ops generalizing s i with
  | nil => cases h
  | cons op rest ih =>
    cases i with
    | zero => simp [runOps]
    | succ j =>
      have hj : j < rest.length := by simpa using h
      simp only [List.take_succ_cons, runOps, List.foldl_cons,
        List.get_cons_succ]
      exact ih (runOp M s op) j hj

/-- A valid trace satisfies the step side condition at every index. -/
theorem traceOK_stepOK (M : Model) (s : CState M) (ops : List (Op M))
    (h : TraceOK M s ops) (i : Nat) (hi : i < ops.length) :
    StepOK M (runOps M s (ops.take i)) (ops.get ⟨i, hi⟩) := by
  induction ops generalizing s i with
  | nil => cases hi
  | cons op rest ih =>
    obtain ⟨h1, h2⟩ := h
    cases i with
    | zero => simpa [runOps] using h1
    | succ j =>
      have hj : j < rest.length := by simpa using hi
      have h3 := ih (runOp M s op) h2 j hj
      simpa [runOps] using h3

/-- C5 (amended): for every counter state and every finite sequence of
`increment()` and `add(delta ≥ 0)` operations executed sequentially, if
no step wraps the 64-bit carry register (the uint64 additions stay below
`2 ^ 64`), then `read()` after each operation is at least `read()`
before it.  The `MonoLaws` hypotheses record the IEEE monotonicity facts
the argument uses. -/
theorem read_monotone_of_no_wrap (M : Model) (L : MonoLaws M)
    (s : CState M) (ops : List (Op M)) (h : TraceOK M s ops) :
    ReadMonotone M s ops := by
  intro i hi
  rw [runOps_take_succ M s ops i hi]
  exact step_read_mono M L _ _ (traceOK_stepOK M s ops h i hi)

/-- The laws assumed of the float model hold in the exact integer
model. -/
theorem exact_monoLaws : MonoLaws ExactModel where
  refl x := le_refl x
  trans x y z h1 h2 := le_trans h1 h2
  monoCarry b m n h := add_le_add_left (Int.ofNat_le.mpr h) b
  monoBase b b2 m h := add_le_add_right h ((m : Nat) : Int)
  addNonneg b v h := le_add_of_nonneg_right h
  addZero x := le_add_of_nonneg_right (by norm_num)
  convZero n hn h := by
    have h2 : (n : Int) = 0 := by simpa using h
    exact_mod_cast h2
  bitsRound x := zigzag_right_inverse x

/-- Witness for C5 (amended): a short wrap-free trace in the exact model
has non-decreasing reads. -/
theorem read_monotone_of_no_wrap_witness :
    ReadMonotone ExactModel ⟨0, 0, none⟩
      [Op.inc, Op.add (5 : Int), Op.inc] := by
  refine read_monotone_of_no_wrap ExactModel exact_monoLaws ⟨0, 0, none⟩
    [Op.inc, Op.add (5 : Int), Op.inc] ?_
  refine ⟨?_, ⟨?_, ?_, ?_⟩, ?_, trivial⟩
  · show (0 : Nat) + 1 < 2 ^ 64
    norm_num
  · show (0 : Int) ≤ 5
    norm_num
  · decide
  · decide
  · show (runOp ExactModel (runOp ExactModel ⟨0, 0, none⟩ Op.inc)
        (Op.add (5 : Int))).change + 1 < 2 ^ 64
    norm_num [runOp, Inc, Add, addWithRoundingErrorChecking, get,
      zigzagOfBits, zigzagToBits]

/-- `Inc` applied `k` times adds `k` to the carry modulo `2 ^ 64` and
touches nothing else. -/
theorem runOps_replicate_inc (M : Model) (s : CState M) (k : Nat)
    (h : s.change < 2 ^ 64) :
    runOps M s (List.replicate k Op.inc) =
      ⟨s.valBits, (s.change + k) % 2 ^ 64, s.exemplar⟩ := by
  induction k generalizing s with
  | zero =>
    show s = (⟨s.valBits, (s.change + 0) % 2 ^ 64, s.exemplar⟩ : CState M)
    have h2 : (s.change + 0) % 2 ^ 64 = s.change := by omega
    rw [h2]
  | succ j ih =>
    rw [List.replicate_succ]
    show runOps M (Inc M s) (List.replicate j Op.inc) = _
    rw [ih (Inc M s) (Nat.mod_lt _ (by norm_num))]
    show (⟨s.valBits, ((s.change + 1) % 2 ^ 64 + j) % 2 ^ 64, s.exemplar⟩ :
      CState M) = _
    have h2 : ((s.change + 1) % 2 ^ 64 + j) % 2 ^ 64 =
        (s.change + (j + 1)) % 2 ^ 64 := by
      rw [Nat.mod_add_mod]
      congr 1
      omega
    rw [h2]

/-- Counterexample to C5 as stated: starting from a fresh counter, the
finite sequence of `2 ^ 64` calls of `increment()` wraps the carry
register on its last step, and `read()` decreases across that step (in
the exact model: from `2 ^ 64 - 1` down to `0`). -/
theorem read_monotone_counterexample :
    ¬ ReadMonotone ExactModel ⟨0, 0, none⟩
      (List.replicate (2 ^ 64) Op.inc) := by
  intro h
  have hlen : 2 ^ 64 - 1 <
      (List.replicate (2 ^ 64) (Op.inc : Op ExactModel)).length := by
    rw [List.length_replicate]
    omega
  have h2 := h (2 ^ 64 - 1) hlen
  have hmin1 : min (2 ^ 64 - 1) (2 ^ 64) = 2 ^ 64 - 1 :=
    Nat.min_eq_left (by omega)
  have hmin2 : min (2 ^ 64 - 1 + 1) (2 ^ 64) = 2 ^ 64 :=
    Nat.min_eq_left (by omega)
  have e1 : (List.replicate (2 ^ 64) (Op.inc : Op ExactModel)).take
      (2 ^ 64 - 1) = List.replicate (2 ^ 64 - 1) Op.inc := by
    rw [List.take_replicate, hmin1]
  have e2 : (List.replicate (2 ^ 64) (Op.inc : Op ExactModel)).take
      (2 ^ 64 - 1 + 1) = List.replicate (2 ^ 64) Op.inc := by
    rw [List.take_replicate, hmin2]
  have r1 : runOps ExactModel ⟨0, 0, none⟩
      ((List.replicate (2 ^ 64) (Op.inc : Op ExactModel)).take (2 ^ 64 - 1)) =
      ⟨0, 2 ^ 64 - 1, none⟩ := by
    rw [e1, runOps_replicate_inc ExactModel ⟨0, 0, none⟩ (2 ^ 64 - 1)
      (by norm_num)]
    show (⟨0, ((0 : Nat) + (2 ^ 64 - 1)) % 2 ^ 64, none⟩ :
      CState ExactModel) = _
    have m1 : ((0 : Nat) + (2 ^ 64 - 1)) % 2 ^ 64 = 2 ^ 64 - 1 := by omega
    rw [m1]
  have r2 : runOps ExactModel ⟨0, 0, none⟩
      ((List.replicate (2 ^ 64) (Op.inc : Op ExactModel)).take
        (2 ^ 64 - 1 + 1)) = ⟨0, 0, none⟩ := by
    rw [e2, runOps_replicate_inc ExactModel ⟨0, 0, none⟩ (2 ^ 64)
      (by norm_num)]
    show (⟨0, ((0 : Nat) + 2 ^ 64) % 2 ^ 64, none⟩ : CState ExactModel) = _
    have m2 : ((0 : Nat) + 2 ^ 64) % 2 ^ 64 = 0 := by omega
    rw [m2]
  rw [r1, r2] at h2
  have h4 : zigzagOfBits 0 + ((2 ^ 64 - 1 : Nat) : Int) ≤
      zigzagOfBits 0 + ((0 : Nat) : Int) := h2
  have h5 : zigzagOfBits 0 = 0 := rfl
  rw [h5] at h4
  omega

end PromCounter
